import Mathlib

/-!
Verification of the teletext archive server's thumbnail pipeline.

This file shallowly embeds the parts of `src/server.js` (and the variant in
`src/unnamed/part_002`) that the specification's claims are about:

* `isValidPath` — path validation (server.js lines 85-90);
* the page inventory built by `app.get('/folder/*')` (server.js lines 262-267);
* `generateThumbnailsForFolder` — background thumbnail generation with
  `MAX_CONCURRENT = 3` chunking (server.js lines 130-152);
* `generateThumbnail` — the per-page render/normalize/persist step
  (server.js lines 93-128 and part_002 lines 239-270);
* the SSE regeneration endpoint `app.get('/regenerate-thumbnails-stream/*')`
  (part_002 lines 1091-1159);
* the in-memory `imageCache` serving layer (server.js lines 29, 155-193);
* the by-year grouping of subfolders (server.js lines 227-259).

Strings are modelled as `List Char`; JavaScript string routines
(`parseInt`, `String.prototype.replace` with a plain-string pattern,
`endsWith`, the `\s`/`\d` character classes) are modelled explicitly.
Filesystem state is modelled as a function from file names (relative to the
folder under consideration) to presence/content.
-/

namespace Teletext

/-! ### JavaScript string primitives -/

/-- Decimal digit test, the `\d` class and the digit set of `parseInt(·, 10)`:
code points 0x30 to 0x39. -/
def isDigitB (c : Char) : Bool :=
  48 ≤ c.toNat && c.toNat ≤ 57

/-- Numeric value of a decimal digit character. -/
def digitVal (c : Char) : Nat :=
  c.toNat - 48

/-- Value of a big-endian decimal digit string. -/
def digitsVal (l : List Char) : Nat :=
  l.foldl (fun a c => 10 * a + digitVal c) 0

/-- JavaScript whitespace (the `\s` class with the `u` flag, which is also the
whitespace skipped by `parseInt`): tab, LF, VT, FF, CR, space, NBSP, Ogham
space, the U+2000 to U+200A range, LS, PS, narrow NBSP, medium mathematical
space, ideographic space and BOM. -/
def isJsWs (c : Char) : Bool :=
  let n := c.toNat
  n == 0x9 || n == 0xA || n == 0xB || n == 0xC || n == 0xD || n == 0x20 ||
  n == 0xA0 || n == 0x1680 || (0x2000 ≤ n && n ≤ 0x200A) ||
  n == 0x2028 || n == 0x2029 || n == 0x202F || n == 0x205F ||
  n == 0x3000 || n == 0xFEFF

/-- Longest leading run of decimal digits, as a value; `none` when the first
character is not a digit (`parseInt` then yields `NaN`). -/
def leadDigits (l : List Char) : Option Nat :=
  match l.takeWhile isDigitB with
  | [] => none
  | ds => some (digitsVal ds)

/-- JavaScript `parseInt(s, 10)`: skip whitespace, accept an optional sign,
then read the longest digit run, ignoring any trailing characters; `none`
models `NaN`. -/
def jsParseInt (s : List Char) : Option Int :=
  match s.dropWhile isJsWs with
  | [] => none
  | c :: rest =>
    if c = '-' then (leadDigits rest).map (fun n => -(n : Int))
    else if c = '+' then (leadDigits rest).map (fun n => (n : Int))
    else (leadDigits (c :: rest)).map (fun n => (n : Int))

/-- JavaScript `str.replace(pat, '')` with a plain-string pattern: remove the
first occurrence of `pat`, leave the string unchanged when `pat` never
occurs. -/
def removeFirst (pat : List Char) : List Char → List Char
  | [] => []
  | x :: xs =>
    if pat.isPrefixOf (x :: xs) then (x :: xs).drop pat.length
    else x :: removeFirst pat xs

/-- JavaScript `str.endsWith(suf)`. -/
def endsWith (suf l : List Char) : Bool :=
  l.drop (l.length - suf.length) == suf

/-- The literal `'.html'`. -/
def htmlSuffix : List Char := ".html".toList

/-- The literal `'.png'`. -/
def pngSuffix : List Char := ".png".toList

/-- Character for a decimal digit value. -/
def digitChar (d : Nat) : Char := Char.ofNat (48 + d)

/-- Little-endian decimal digits of a natural number, with enough fuel. -/
def natToDecRevAux : Nat → Nat → List Char
  | 0, _ => []
  | _ + 1, 0 => []
  | fuel + 1, n + 1 => digitChar ((n + 1) % 10) :: natToDecRevAux fuel ((n + 1) / 10)

/-- Little-endian decimal digits of a natural number. -/
def natToDecRev (n : Nat) : List Char :=
  natToDecRevAux n n

/-- JavaScript number-to-string for a nonnegative integer, as in the template
literal that builds the thumbnail file name. -/
def natToDec (n : Nat) : List Char :=
  if n = 0 then ['0'] else (natToDecRev n).reverse

/-! ### Path validation (`isValidPath`, server.js lines 85-90) -/

/-- Character allow-list of the `isValidPath` regex
`[a-zA-Z(cyrillic)0-9\s,. -_\/&()'\[\]{}@#~$%^*+=<>:;]` with the `u` flag.
Note the source `. -_` fragment parses as the range U+0020 to U+005F, and the
extra singletons add the braces and the tilde beyond it. -/
def allowedChar (c : Char) : Bool :=
  let n := c.toNat
  (0x61 ≤ n && n ≤ 0x7A) ||
  (0x41 ≤ n && n ≤ 0x5A) ||
  (0x430 ≤ n && n ≤ 0x44F) ||
  (0x410 ≤ n && n ≤ 0x42F) ||
  n == 0x451 || n == 0x401 ||
  (0x30 ≤ n && n ≤ 0x39) ||
  isJsWs c ||
  n == 0x2C || n == 0x2E ||
  (0x20 ≤ n && n ≤ 0x5F) ||
  n == 0x2F ||
  n == 0x26 || n == 0x28 || n == 0x29 || n == 0x27 ||
  n == 0x5B || n == 0x5D || n == 0x7B || n == 0x7D ||
  n == 0x40 || n == 0x23 || n == 0x7E || n == 0x24 || n == 0x25 ||
  n == 0x5E || n == 0x2A || n == 0x2B || n == 0x3D ||
  n == 0x3C || n == 0x3E || n == 0x3A || n == 0x3B

/-- Test for the substring `'..'`. -/
def hasDotDot : List Char → Bool
  | '.' :: '.' :: _ => true
  | _ :: rest => hasDotDot rest
  | [] => false

/-- Test for a leading `'/'`. -/
def startsWithSlash : List Char → Bool
  | c :: _ => c == '/'
  | [] => false

/-- `isValidPath` from server.js lines 85-90: the empty string is accepted;
otherwise every character must be allow-listed and the string must not
contain `'..'`, start with `'/'`, or contain a colon, backslash or NUL. -/
def isValidPath (p : List Char) : Bool :=
  if p.isEmpty then true
  else
    p.all allowedChar &&
    !hasDotDot p &&
    !startsWithSlash p &&
    !p.contains ':' &&
    !p.contains '\\' &&
    !p.contains (Char.ofNat 0)

/-! ### Page inventory (`app.get('/folder/*')`, server.js lines 262-267) -/

/-- One entry of the `pages` array: `{ page, hasThumb }`; `page` is `none`
when `parseInt` gave `NaN`. -/
structure PageRecord where
  page : Option Int
  hasThumb : Bool
deriving DecidableEq, Repr

/-- The retention test `!isNaN(p.page) && p.page >= 100 && p.page <= 999`. -/
def pageInRange : Option Int → Bool
  | some n => 100 ≤ n && n ≤ 999
  | none => false

/-- The page inventory computed by the folder view (server.js lines 262-267):
map each directory entry ending in `'.html'` to a record whose `page` is
`parseInt` of the stem (first `'.html'` occurrence removed) and whose
`hasThumb` is an existence check of `stem + '.png'`, then keep the records
whose page parses into the range 100 to 999. `fileExists` stands for
`fs.existsSync` restricted to the folder. -/
def listPages (entries : List (List Char)) (fileExists : List Char → Bool) :
    List PageRecord :=
  ((entries.filter (fun f => endsWith htmlSuffix f)).map (fun file =>
      let stem := removeFirst htmlSuffix file
      { page := jsParseInt stem
        hasThumb := fileExists (stem ++ pngSuffix) : PageRecord })).filter
    (fun r => pageInRange r.page)

/-- Thumbnail path a retained file's render is persisted at by
`generateThumbnailsForFolder` (server.js line 138): the parsed page number,
re-stringified, with `'.png'` appended; `none` when the file produces no
generation task. -/
def taskTarget (file : List Char) : Option (List Char) :=
  if endsWith htmlSuffix file then
    match jsParseInt (removeFirst htmlSuffix file) with
    | some n => if 100 ≤ n && n ≤ 999 then some (natToDec n.toNat ++ pngSuffix) else none
    | none => none
  else none

/-- Generation tasks of `generateThumbnailsForFolder` (server.js lines
131-147): each retained html file paired with the png path the render is
persisted at. -/
def genTasks (entries : List (List Char)) : List (List Char × List Char) :=
  entries.filterMap (fun file => (taskTarget file).map (fun png => (file, png)))

/-- Thumbnail path the inventory's `hasThumb` existence check probes for a
file (server.js line 265): the raw stem with `'.png'` appended. -/
def inventoryPng (file : List Char) : List Char :=
  removeFirst htmlSuffix file ++ pngSuffix

/-! ### Background generation run (`generateThumbnailsForFolder`,
server.js lines 130-152)

The run is modelled one task at a time: the tasks of one chunk touch
pairwise-distinct state except when two stems parse to the same page number,
and the claims under verification quantify over the produced render
operations and the final state, both of which the sequential model captures
faithfully.  `fsys` maps a png file name to its presence, `ok` tells whether
rendering a given html file succeeds (on failure the error is caught and
logged and no png is written). -/

/-- Mark a file as present. -/
def fsAdd (fsys : List Char → Bool) (p : List Char) : List Char → Bool :=
  fun q => if q = p then true else fsys q

/-- One background run: returns the list of png targets for which a render
operation was started (successful or not) and the final filesystem. -/
def runBg (ok : List Char → Bool) :
    List (List Char) → (List Char → Bool) → List (List Char) × (List Char → Bool)
  | [], fsys => ([], fsys)
  | f :: rest, fsys =>
    match taskTarget f with
    | none => runBg ok rest fsys
    | some png =>
      if fsys png then runBg ok rest fsys
      else
        let fsys' := if ok f then fsAdd fsys png else fsys
        let r := runBg ok rest fsys'
        (png :: r.1, r.2)

/-! ### Foreground SSE regeneration run
(`app.get('/regenerate-thumbnails-stream/*')`, part_002 lines 1091-1159) -/

/-- One progress message `{ progress, current, total, generated }`. -/
structure ProgressEvent where
  progress : Nat
  current : Nat
  total : Nat
  generated : List (List Char)
deriving DecidableEq, Repr

/-- The final stream message `{ success, errors, generated, message }`; it
carries no `current` or `total` field. -/
structure FinalMsg where
  success : Bool
  errors : List (List Char)
  generated : List (List Char)
deriving DecidableEq, Repr

/-- Accumulated outcome of a foreground run. -/
structure StreamResult where
  generated : List (List Char)
  errors : List (List Char)
  events : List ProgressEvent
  attempts : List (List Char)
  fsys : List Char → Bool

/-- `Math.round(((i + 1) / total) * 100)` over naturals. -/
def progressPct (current total : Nat) : Nat :=
  (200 * current + total) / (2 * total)

/-- The loop body of the SSE endpoint (part_002 lines 1122-1148), indexed over
the html file list: a file whose stem does not parse into range is skipped
(`continue`); otherwise `generateThumbnail` runs (`outcome f = none` means
success, `some msg` the caught error message).  On success the png is listed
in `generated`, written, and a progress event with `current = i + 1` is
emitted; on failure `'file: msg'` is appended to `errors` and no event is
emitted. -/
def streamLoop (outcome : List Char → Option (List Char)) (total : Nat) :
    List (List Char) → Nat → (List Char → Bool) → StreamResult
  | [], _, fsys => ⟨[], [], [], [], fsys⟩
  | f :: rest, i, fsys =>
    match jsParseInt (removeFirst htmlSuffix f) with
    | some n =>
      if 100 ≤ n && n ≤ 999 then
        let png := natToDec n.toNat ++ pngSuffix
        match outcome f with
        | none =>
          let r := streamLoop outcome total rest (i + 1) (fsAdd fsys png)
          ⟨png :: r.generated, r.errors,
            ⟨progressPct (i + 1) total, i + 1, total, [png]⟩ :: r.events,
            f :: r.attempts, r.fsys⟩
        | some msg =>
          let r := streamLoop outcome total rest (i + 1) fsys
          ⟨r.generated, (f ++ (": ".toList) ++ msg) :: r.errors, r.events,
            f :: r.attempts, r.fsys⟩
      else
        let r := streamLoop outcome total rest (i + 1) fsys
        ⟨r.generated, r.errors, r.events, r.attempts, r.fsys⟩
    | none =>
      let r := streamLoop outcome total rest (i + 1) fsys
      ⟨r.generated, r.errors, r.events, r.attempts, r.fsys⟩

/-- The full SSE run: filter to html files, loop, and build the final
message, whose `success` field the source hardcodes to `true`. -/
def runStream (outcome : List Char → Option (List Char))
    (entries : List (List Char)) (fsys : List Char → Bool) :
    StreamResult × FinalMsg :=
  let htmlFiles := entries.filter (fun f => endsWith htmlSuffix f)
  let r := streamLoop outcome htmlFiles.length htmlFiles 0 fsys
  (r, ⟨true, r.errors, r.generated⟩)

/-! ### Concurrency model of `generateThumbnailsForFolder`
(server.js lines 130-152)

The source slices the task list into chunks of `MAX_CONCURRENT = 3` and
awaits `Promise.all` of one chunk before starting the next, so inside one
invocation the simultaneously active render operations are exactly the
unfinished tasks of the current chunk.  Nothing synchronizes distinct
invocations: every folder view fires its own `generateThumbnailsForFolder`
without consulting any process-global counter.  The transition system below
models a process as a list of invocations, each holding its remaining chunk
sizes and the number of still-active tasks of its current chunk. -/

/-- The `MAX_CONCURRENT` constant (server.js line 130). -/
def MAX_CONCURRENT : Nat := 3

/-- Chunking worker with enough fuel. -/
def chunksOfAux (k : Nat) : Nat → List α → List (List α)
  | 0, _ => []
  | _ + 1, [] => []
  | fuel + 1, x :: xs => (x :: xs.take (k - 1)) :: chunksOfAux k fuel (xs.drop (k - 1))

/-- The chunks `tasks.slice(i, i + MAX_CONCURRENT)` of the chunking loop
(server.js lines 148-151), for a positive chunk size `k`. -/
def chunksOf (k : Nat) (l : List α) : List (List α) :=
  chunksOfAux k l.length l

/-- One in-flight `generateThumbnailsForFolder` invocation: the number of
still-active tasks of the chunk currently under `Promise.all`, and the sizes
of the chunks not yet started. -/
structure Inv where
  active : Nat
  pending : List Nat
deriving DecidableEq, Repr

/-- Sum of active render operations across all invocations of the process. -/
def totalActive (s : List Inv) : Nat :=
  (s.map Inv.active).sum

/-- Interleaving steps of the process: a request may spawn a new invocation
over any task list at any time; an invocation whose current chunk has fully
resolved starts its next chunk (all of the chunk's tasks begin at once under
`Promise.all`); any single active task may finish. -/
inductive SchedStep : List Inv → List Inv → Prop where
  | spawn (s : List Inv) (tasks : List (List Char)) :
      SchedStep s (s ++ [⟨0, (chunksOf MAX_CONCURRENT tasks).map List.length⟩])
  | start (s₁ s₂ : List Inv) (c : Nat) (rest : List Nat) :
      SchedStep (s₁ ++ ⟨0, c :: rest⟩ :: s₂) (s₁ ++ ⟨c, rest⟩ :: s₂)
  | finish (s₁ s₂ : List Inv) (n : Nat) (rest : List Nat) :
      SchedStep (s₁ ++ ⟨n + 1, rest⟩ :: s₂) (s₁ ++ ⟨n, rest⟩ :: s₂)

/-- States of the process reachable from the idle state. -/
inductive SchedReachable : List Inv → Prop where
  | init : SchedReachable []
  | step {s t : List Inv} : SchedReachable s → SchedStep s t → SchedReachable t

/-! ### Persistence of one thumbnail (`generateThumbnail`)

The claims about atomicity concern which contents the target png path holds
at the observable moments of one `generateThumbnail` call. -/

/-- Contents the target path can hold during a generation: the raw full-page
screenshot, or the normalized (resized, re-encoded) thumbnail. -/
inductive ThumbContent where
  | raw : ThumbContent
  | normalized : ThumbContent
deriving DecidableEq, Repr

/-- Whole-file writes to the target path performed by the server.js
`generateThumbnail` (lines 107-121): `page.screenshot({ path: pngPath })`
first writes the raw capture to the target, then `fs.writeFileSync(pngPath,
resizedBuffer)` overwrites it with the normalized bytes. -/
def serverWriteSeq : List ThumbContent :=
  [ThumbContent.raw, ThumbContent.normalized]

/-- Whole-file writes of the part_002 `generateThumbnail` (lines 253-263):
the screenshot stays in memory and a single `fs.writeFile` stores the
normalized bytes. -/
def part002WriteSeq : List ThumbContent :=
  [ThumbContent.normalized]

/-- Observable contents of the target path over a call: the prior contents
followed by the contents after each whole-file write. -/
def observedStates (init : Option ThumbContent) (writes : List ThumbContent) :
    List (Option ThumbContent) :=
  init :: writes.map some

/-! ### Serving layer and in-memory image cache
(server.js lines 29 and 155-193)

`imageCache` maps absolute png paths to byte buffers.  A `/teletext` request
for a png answers from the cache when the key is present, otherwise reads the
file and populates the cache.  `generateThumbnail` writes the file only and
never touches `imageCache`.  Byte buffers are abstracted to `Nat`. -/

/-- Process state relevant to png serving: the filesystem and the cache. -/
structure ServeState where
  fsys : List Char → Option Nat
  cache : List Char → Option Nat

/-- The `/teletext` png handler (server.js lines 157-188): answer from the
cache when present, otherwise read the file, cache the bytes and answer;
`none` models the 404 branch. -/
def serveTeletext (st : ServeState) (k : List Char) : Option Nat × ServeState :=
  match st.cache k with
  | some buf => (some buf, st)
  | none =>
    match st.fsys k with
    | some buf =>
      (some buf, ⟨st.fsys, fun q => if q = k then some buf else st.cache q⟩)
    | none => (none, st)

/-- The persistence step of regeneration: `generateThumbnail` overwrites the
file at the key and leaves `imageCache` untouched. -/
def persistThumb (st : ServeState) (k : List Char) (buf : Nat) : ServeState :=
  ⟨fun q => if q = k then some buf else st.fsys q, st.cache⟩

/-! ### By-year grouping of subfolders (server.js lines 227-259) -/

/-- The regex match `folder.match(/(\d{2}|\d{4})$/)`: scan positions left to
right; at each position the suffix matches when it consists of exactly two,
otherwise exactly four, decimal digits running to the end of the string. -/
def matchYearEnd : List Char → Option (List Char)
  | [] => none
  | x :: xs =>
    if (x :: xs).length == 2 && (x :: xs).all isDigitB then some (x :: xs)
    else if (x :: xs).length == 4 && (x :: xs).all isDigitB then some (x :: xs)
    else matchYearEnd xs

/-- The last `n` characters of a string. -/
def lastN (n : Nat) (l : List Char) : List Char :=
  l.drop (l.length - n)

/-- Year extraction from a folder name (server.js lines 230-243): a 4-digit
match is the year itself; a 2-digit match `n` becomes `1900 + n` when
`n > 25` and `2000 + n` otherwise; no match gives year 0. -/
def yearBucket (folder : List Char) : Nat :=
  match matchYearEnd folder with
  | none => 0
  | some yp =>
    if yp.length == 4 then digitsVal yp
    else
      let n := digitsVal yp
      if n > 25 then 1900 + n else 2000 + n

/-- The grouped folder view (server.js lines 245-259): the distinct year
buckets sorted descending (`sort((a, b) => b - a)`), each carrying its
folders sorted by name (`foldersByYear[year].sort()`, which for `List Char`
is the lexicographic order by code point of the `LinearOrder` instance). -/
def groupedFolders (folders : List (List Char)) : List (Nat × List (List Char)) :=
  let years := (folders.map yearBucket).dedup
  let sortedYears := List.insertionSort (fun a b : Nat => a ≥ b) years
  sortedYears.map (fun y =>
    (y, List.insertionSort (· ≤ ·) (folders.filter (fun f => yearBucket f == y))))

/-- Modelled from the spec: the stem exactly matches the required 3-digit
numbering convention with value in the range 100 to 999.  Used only to
compare the spec's wording with what the code computes. -/
def specExact3DigitStem (stem : List Char) : Bool :=
  stem.length == 3 && stem.all isDigitB &&
    decide (100 ≤ digitsVal stem) && decide (digitsVal stem ≤ 999)

/-- Retained html files of a directory listing: the files the foreground
regeneration renders. -/
def validFiles (entries : List (List Char)) : List (List Char) :=
  (entries.filter (fun f => endsWith htmlSuffix f)).filter
    (fun f => pageInRange (jsParseInt (removeFirst htmlSuffix f)))

/-- Error-list entry a file contributes to a foreground run, if any. -/
def streamErrorOf (outcome : List Char → Option (List Char)) (f : List Char) :
    Option (List Char) :=
  if pageInRange (jsParseInt (removeFirst htmlSuffix f)) then
    (outcome f).map (fun msg => f ++ (": ".toList) ++ msg)
  else none

/-- Generated-list entry a file contributes to a foreground run, if any. -/
def streamGenOf (outcome : List Char → Option (List Char)) (f : List Char) :
    Option (List Char) :=
  match jsParseInt (removeFirst htmlSuffix f), outcome f with
  | some n, none =>
    if 100 ≤ n && n ≤ 999 then some (natToDec n.toNat ++ pngSuffix) else none
  | _, _ => none

/-- Invariant carried by every invocation: bounded active count and bounded
pending chunk sizes. -/
def InvOK (inv : Inv) : Prop :=
  inv.active ≤ MAX_CONCURRENT ∧ ∀ c ∈ inv.pending, c ≤ MAX_CONCURRENT

/-! ## Helper lemmas -/

/-- Little-endian value of a digit string. -/
def valRev : List Char → Nat
  | [] => 0
  | c :: cs => digitVal c + 10 * valRev cs

theorem digitVal_digitChar {d : Nat} (h : d < 10) : digitVal (digitChar d) = d := by
  interval_cases d <;> decide

theorem isDigitB_digitChar {d : Nat} (h : d < 10) : isDigitB (digitChar d) = true := by
  interval_cases d <;> decide

theorem valRev_natToDecRevAux : ∀ fuel n, n ≤ fuel → valRev (natToDecRevAux fuel n) = n := by
  intro fuel
  induction fuel with
  | zero =>
    intro n h
    have h0 : n = 0 := Nat.le_zero.mp h
    subst h0
    rfl
  | succ f ih =>
    intro n h
    match n with
    | 0 => rfl
    | m + 1 =>
      have hdiv : (m + 1) / 10 ≤ f := by
        have := Nat.div_lt_self (Nat.succ_pos m) (show 1 < 10 by omega)
        omega
      show digitVal (digitChar ((m + 1) % 10)) + 10 * valRev (natToDecRevAux f ((m + 1) / 10)) = m + 1
      rw [ih _ hdiv, digitVal_digitChar (Nat.mod_lt _ (by omega))]
      omega

theorem all_isDigitB_natToDecRevAux : ∀ fuel n, (natToDecRevAux fuel n).all isDigitB = true := by
  intro fuel
  induction fuel with
  | zero => intro n; rfl
  | succ f ih =>
    intro n
    match n with
    | 0 => rfl
    | m + 1 =>
      show (digitChar ((m + 1) % 10) :: natToDecRevAux f ((m + 1) / 10)).all isDigitB = true
      rw [List.all_cons, isDigitB_digitChar (Nat.mod_lt _ (by omega)), ih]
      rfl

theorem digitsVal_append_digit (xs : List Char) (c : Char) :
    digitsVal (xs ++ [c]) = 10 * digitsVal xs + digitVal c := by
  unfold digitsVal
  rw [List.foldl_append]
  rfl

theorem digitsVal_reverse (l : List Char) : digitsVal l.reverse = valRev l := by
  induction l with
  | nil => rfl
  | cons c cs ih =>
    rw [List.reverse_cons, digitsVal_append_digit, ih]
    show 10 * valRev cs + digitVal c = digitVal c + 10 * valRev cs
    omega

theorem digitsVal_natToDec (n : Nat) : digitsVal (natToDec n) = n := by
  unfold natToDec
  by_cases h : n = 0
  · subst h; decide
  · rw [if_neg h, digitsVal_reverse]
    exact valRev_natToDecRevAux n n le_rfl

theorem all_isDigitB_natToDec (n : Nat) : (natToDec n).all isDigitB = true := by
  unfold natToDec
  by_cases h : n = 0
  · subst h; decide
  · rw [if_neg h, List.all_reverse]
    exact all_isDigitB_natToDecRevAux n n

theorem natToDec_ne_nil (n : Nat) : natToDec n ≠ [] := by
  unfold natToDec
  by_cases h : n = 0
  · subst h; decide
  · rw [if_neg h, Ne, List.reverse_eq_nil_iff]
    match n, h with
    | m + 1, _ => exact fun hh => List.noConfusion hh

theorem isJsWs_of_isDigitB {c : Char} (h : isDigitB c = true) : isJsWs c = false := by
  simp only [isDigitB, Bool.and_eq_true, decide_eq_true_eq] at h
  by_contra hne
  have hws : isJsWs c = true := by revert hne; cases isJsWs c <;> simp
  simp only [isJsWs, Bool.or_eq_true, Bool.and_eq_true, beq_iff_eq, decide_eq_true_eq] at hws
  omega

theorem jsParseInt_all_digits {l : List Char} (hne : l ≠ [])
    (hd : l.all isDigitB = true) : jsParseInt l = some ((digitsVal l : Nat) : Int) := by
  match l, hne with
  | c :: cs, _ =>
    have hall := List.all_eq_true.mp hd
    have hc : isDigitB c = true := hall c (List.mem_cons_self c cs)
    have hdrop : (c :: cs).dropWhile isJsWs = c :: cs := by
      rw [List.dropWhile_cons, isJsWs_of_isDigitB hc]
      simp
    have hcm : c ≠ '-' := by
      intro hEq; subst hEq; exact absurd hc (by decide)
    have hcp : c ≠ '+' := by
      intro hEq; subst hEq; exact absurd hc (by decide)
    have htake : (c :: cs).takeWhile isDigitB = c :: cs :=
      List.takeWhile_eq_self_iff.mpr hall
    show jsParseInt (c :: cs) = _
    unfold jsParseInt
    rw [hdrop]
    simp only [if_neg hcm, if_neg hcp]
    unfold leadDigits
    rw [htake]
    rfl

theorem endsWith_append (l suf : List Char) : endsWith suf (l ++ suf) = true := by
  unfold endsWith
  have hlen : (l ++ suf).length - suf.length = l.length := by
    rw [List.length_append]; omega
  rw [hlen, List.drop_left]
  exact beq_self_eq_true suf

theorem isPrefixOf_self (l : List Char) : l.isPrefixOf l = true := by
  induction l with
  | nil => rfl
  | cons x xs ih =>
    show (x == x && xs.isPrefixOf xs) = true
    rw [beq_self_eq_true, ih]
    rfl

theorem removeFirst_append_of_no_dot {l : List Char} {rest : List Char}
    (h : ∀ c ∈ l, c ≠ '.') :
    removeFirst ('.' :: rest) (l ++ '.' :: rest) = l := by
  induction l with
  | nil =>
    show removeFirst ('.' :: rest) ('.' :: rest) = []
    unfold removeFirst
    rw [if_pos (isPrefixOf_self _)]
    exact List.drop_length _
  | cons x xs ih =>
    show removeFirst ('.' :: rest) (x :: (xs ++ '.' :: rest)) = x :: xs
    unfold removeFirst
    have hx : x ≠ '.' := h x (List.mem_cons_self x xs)
    have hpre : ('.' :: rest).isPrefixOf (x :: (xs ++ '.' :: rest)) = false := by
      cases hP : ('.' :: rest).isPrefixOf (x :: (xs ++ '.' :: rest)) with
      | false => rfl
      | true =>
        have hP' : ('.' == x && rest.isPrefixOf (xs ++ '.' :: rest)) = true := hP
        have hxEq : '.' = x := beq_iff_eq.mp ((Bool.and_eq_true _ _).mp hP').1
        exact absurd hxEq.symm hx
    rw [hpre]
    simp only [Bool.false_eq_true, if_false]
    rw [ih (fun c hc => h c (List.mem_cons_of_mem x hc))]

theorem no_dot_of_all_digits {l : List Char} (h : l.all isDigitB = true) :
    ∀ c ∈ l, c ≠ '.' := by
  intro c hc hEq
  have hdig := List.all_eq_true.mp h c hc
  subst hEq
  exact absurd hdig (by decide)

theorem htmlSuffix_cons : htmlSuffix = '.' :: "html".toList := by decide

theorem removeFirst_html_of_digits {l : List Char} (h : l.all isDigitB = true) :
    removeFirst htmlSuffix (l ++ htmlSuffix) = l := by
  rw [htmlSuffix_cons]
  exact removeFirst_append_of_no_dot (no_dot_of_all_digits h)

/-! ## Theorems -/

/-- C1: for every raw path string, `isValidPath` returns `false` whenever the
string contains `'..'`, starts with `'/'`, or contains a colon, backslash or
NUL byte, or any character outside the allow-listed set; it returns `true`
for the empty string and for `"Archive/Sub Folder"`, and `"../../etc"` is
rejected. -/
theorem isValidPath_rejects_illegal_accepts_allowed :
    (∀ p : List Char,
      (hasDotDot p = true ∨ startsWithSlash p = true ∨
        p.contains ':' = true ∨ p.contains '\\' = true ∨
        p.contains (Char.ofNat 0) = true ∨
        (∃ c ∈ p, allowedChar c = false)) →
      isValidPath p = false) ∧
    isValidPath [] = true ∧
    isValidPath ("Archive/Sub Folder".toList) = true ∧
    isValidPath ("../../etc".toList) = false := by
  refine ⟨?_, by decide, by decide, by decide⟩
  intro p h
  match p with
  | [] =>
    exfalso
    rcases h with h | h | h | h | h | ⟨c, hc, _⟩
    · simp [hasDotDot] at h
    · simp [startsWithSlash] at h
    · simp at h
    · simp at h
    · simp at h
    · simp at hc
  | x :: xs =>
    have hcons : isValidPath (x :: xs) =
        ((x :: xs).all allowedChar &&
          !hasDotDot (x :: xs) &&
          !startsWithSlash (x :: xs) &&
          !(x :: xs).contains ':' &&
          !(x :: xs).contains '\\' &&
          !(x :: xs).contains (Char.ofNat 0)) := rfl
    rcases h with h | h | h | h | h | hbad
    · rw [hcons, h]; simp
    · rw [hcons, h]; simp
    · rw [hcons, h]; simp
    · rw [hcons, h]; simp
    · rw [hcons, h]; simp
    · have hall : ((x :: xs).all allowedChar) = false := by
        rcases hbad with ⟨c, hmem, hc⟩
        cases hA : (x :: xs).all allowedChar with
        | false => rfl
        | true =>
          have := List.all_eq_true.mp hA c hmem
          rw [this] at hc
          exact absurd hc (by simp)
      rw [hcons, hall]; simp

/-- C1 witness: the theorem applied at the concrete input `"../../etc"`. -/
theorem isValidPath_rejects_illegal_accepts_allowed_witness :
    isValidPath ("../../etc".toList) = false :=
  isValidPath_rejects_illegal_accepts_allowed.1 _ (Or.inl (by decide))


/-- C2 counterexample: the file `100abc.html`, whose stem does not exactly
match the 3-digit convention, is nevertheless included in the inventory and
produces a generation task, because `parseInt` reads `'100abc'` as `100`. -/
theorem listPages_not_exact_three_digit_counterexample :
    (listPages ["100abc.html".toList] (fun _ => false)).length = 1 ∧
    specExact3DigitStem (removeFirst htmlSuffix ("100abc.html".toList)) = false ∧
    genTasks ["100abc.html".toList] =
      [("100abc.html".toList, "100.png".toList)] := by
  decide

/-- C2 amended: a file is included in the inventory, and produces a
generation task, exactly when JavaScript `parseInt` of its stem yields a
value in the range 100 to 999 (exact 3-digit form is not required); in
particular `abc.html` is excluded from the inventory and never produces a
generation task. -/
theorem listPages_inclusion_by_parseInt :
    (∀ (entries : List (List Char)) (fileExists : List Char → Bool)
        (r : PageRecord), r ∈ listPages entries fileExists →
        pageInRange r.page = true) ∧
    (∀ (entries : List (List Char)) (file png : List Char),
        (file, png) ∈ genTasks entries →
        pageInRange (jsParseInt (removeFirst htmlSuffix file)) = true) ∧
    (∀ (entries : List (List Char)) (fileExists : List Char → Bool)
        (file : List Char), file ∈ entries →
        endsWith htmlSuffix file = true →
        pageInRange (jsParseInt (removeFirst htmlSuffix file)) = true →
        ({ page := jsParseInt (removeFirst htmlSuffix file)
           hasThumb := fileExists (removeFirst htmlSuffix file ++ pngSuffix) } :
          PageRecord) ∈ listPages entries fileExists) ∧
    (∀ fileExists : List Char → Bool, listPages ["abc.html".toList] fileExists = []) ∧
    genTasks ["abc.html".toList] = [] := by
  refine ⟨?_, ?_, ?_, ?_, by decide⟩
  · intro entries fileExists r hr
    unfold listPages at hr
    exact List.of_mem_filter (p := fun q : PageRecord => pageInRange q.page) hr
  · intro entries file png hmem
    rcases List.mem_filterMap.mp hmem with ⟨a, _, ha⟩
    rcases Option.map_eq_some'.mp ha with ⟨p, hp, hpair⟩
    have haf : a = file := congrArg Prod.fst hpair
    subst haf
    unfold taskTarget at hp
    by_cases hE : endsWith htmlSuffix a = true
    · rw [if_pos hE] at hp
      cases hJ : jsParseInt (removeFirst htmlSuffix a) with
      | none => rw [hJ] at hp; exact absurd hp (by simp)
      | some n =>
        rw [hJ] at hp
        have hp' : (if (decide (100 ≤ n) && decide (n ≤ 999)) = true then
            some (natToDec n.toNat ++ pngSuffix) else none) = some p := hp
        by_cases hR : (decide (100 ≤ n) && decide (n ≤ 999)) = true
        · exact hR
        · rw [if_neg hR] at hp'; exact absurd hp' (by simp)
    · rw [if_neg hE] at hp; exact absurd hp (by simp)
  · intro entries fileExists file hmem hE hP
    unfold listPages
    apply List.mem_filter.mpr
    refine ⟨?_, hP⟩
    apply List.mem_map.mpr
    exact ⟨file, List.mem_filter.mpr ⟨hmem, hE⟩, rfl⟩
  · intro fileExists
    rfl

/-- C2 witness: the amended theorem's inclusion direction applied at the
concrete inventory of the single file `100.html`. -/
theorem listPages_inclusion_by_parseInt_witness :
    pageInRange (({ page := some 100, hasThumb := false } : PageRecord).page) = true :=
  listPages_inclusion_by_parseInt.1 ["100.html".toList] (fun _ => false)
    { page := some 100, hasThumb := false } (by decide)

/-- C3 counterexample: the retained page file `0100.html` is rendered to
`100.png` (the parsed number re-stringified) while the inventory checks for
`0100.png` (the raw stem), so the generator's path and the inventory's path
disagree for this retained file. -/
theorem generator_inventory_path_mismatch_counterexample :
    genTasks ["0100.html".toList] = [("0100.html".toList, "100.png".toList)] ∧
    inventoryPng ("0100.html".toList) = "0100.png".toList ∧
    ("100.png".toList ≠ "0100.png".toList) ∧
    (listPages ["0100.html".toList] (fun _ => false)).length = 1 := by
  decide

/-- C3 amended: for page files whose name is the canonical decimal numeral
`NNN` of a number in the range 100 to 999 followed by `.html`, the generator
persists at `NNN.png` and the inventory checks `NNN.png` — the two paths
agree; for other retained stems (such as `0100`) they can differ. -/
theorem generator_inventory_paths_agree_on_canonical :
    ∀ n : Nat, 100 ≤ n → n ≤ 999 →
      taskTarget (natToDec n ++ htmlSuffix) = some (natToDec n ++ pngSuffix) ∧
      inventoryPng (natToDec n ++ htmlSuffix) = natToDec n ++ pngSuffix := by
  intro n h1 h2
  have hrm : removeFirst htmlSuffix (natToDec n ++ htmlSuffix) = natToDec n :=
    removeFirst_html_of_digits (all_isDigitB_natToDec n)
  constructor
  · unfold taskTarget
    rw [endsWith_append]
    simp only [if_true]
    rw [hrm, jsParseInt_all_digits (natToDec_ne_nil n) (all_isDigitB_natToDec n),
      digitsVal_natToDec]
    have hb : (decide ((100 : Int) ≤ ((n : Nat) : Int)) &&
        decide (((n : Nat) : Int) ≤ 999)) = true := by
      simp only [Bool.and_eq_true, decide_eq_true_eq]
      omega
    have hstep : (if (decide ((100 : Int) ≤ ((n : Nat) : Int)) &&
          decide (((n : Nat) : Int) ≤ 999)) = true then
        some (natToDec ((n : Nat) : Int).toNat ++ pngSuffix) else none) =
        some (natToDec n ++ pngSuffix) := by
      rw [if_pos hb]
      simp
    exact hstep
  · unfold inventoryPng
    rw [hrm]

/-- C3 witness: the amended theorem applied at the page number 100. -/
theorem generator_inventory_paths_agree_on_canonical_witness :
    taskTarget (natToDec 100 ++ htmlSuffix) = some (natToDec 100 ++ pngSuffix) ∧
    inventoryPng (natToDec 100 ++ htmlSuffix) = natToDec 100 ++ pngSuffix :=
  generator_inventory_paths_agree_on_canonical 100 (by decide) (by decide)


theorem runBg_monotone (ok : List Char → Bool) :
    ∀ (entries : List (List Char)) (fsys : List Char → Bool) (q : List Char),
      fsys q = true → (runBg ok entries fsys).2 q = true := by
  intro entries
  induction entries with
  | nil => intro fsys q h; exact h
  | cons f rest ih =>
    intro fsys q h
    show (runBg ok (f :: rest) fsys).2 q = true
    unfold runBg
    cases taskTarget f with
    | none => exact ih fsys q h
    | some png =>
      simp only
      by_cases hfs : fsys png = true
      · rw [if_pos hfs]; exact ih fsys q h
      · rw [if_neg hfs]
        cases hok : ok f with
        | true =>
          simp only [if_true]
          exact ih _ q (by unfold fsAdd; by_cases hq : q = png <;> simp [hq, h])
        | false =>
          simp only [Bool.false_eq_true, if_false]
          exact ih fsys q h

theorem runBg_renders_only_missing (ok : List Char → Bool) :
    ∀ (entries : List (List Char)) (fsys : List Char → Bool) (p : List Char),
      p ∈ (runBg ok entries fsys).1 → fsys p = false := by
  intro entries
  induction entries with
  | nil => intro fsys p h; exact absurd h (by simp [runBg])
  | cons f rest ih =>
    intro fsys p h
    cases hT : taskTarget f with
    | none =>
      simp only [runBg, hT] at h
      exact ih fsys p h
    | some png =>
      simp only [runBg, hT] at h
      by_cases hfs : fsys png = true
      · rw [if_pos hfs] at h; exact ih fsys p h
      · rw [if_neg hfs] at h
        simp only [List.mem_cons] at h
        rcases h with h | h
        · subst h; exact Bool.eq_false_iff.mpr hfs
        · have hrec := ih (if ok f then fsAdd fsys png else fsys) p h
          by_cases hok : ok f = true
          · rw [if_pos hok] at hrec
            unfold fsAdd at hrec
            by_cases hq : p = png
            · subst hq; exact Bool.eq_false_iff.mpr hfs
            · rw [if_neg hq] at hrec; exact hrec
          · rw [if_neg hok] at hrec; exact hrec

theorem runBg_completes (ok : List Char → Bool) (hok : ∀ f, ok f = true) :
    ∀ (entries : List (List Char)) (fsys : List Char → Bool)
      (f : List Char), f ∈ entries → ∀ png, taskTarget f = some png →
      (runBg ok entries fsys).2 png = true := by
  intro entries
  induction entries with
  | nil => intro fsys f h; exact absurd h (List.not_mem_nil f)
  | cons g rest ih =>
    intro fsys f hmem png hT
    rcases List.mem_cons.mp hmem with hEq | hmem'
    · subst hEq
      show (runBg ok (f :: rest) fsys).2 png = true
      unfold runBg
      rw [hT]
      simp only
      by_cases hfs : fsys png = true
      · rw [if_pos hfs]; exact runBg_monotone ok rest fsys png hfs
      · rw [if_neg hfs, hok f]
        simp only [if_true]
        exact runBg_monotone ok rest _ png (by unfold fsAdd; simp)
    · show (runBg ok (g :: rest) fsys).2 png = true
      unfold runBg
      cases hTg : taskTarget g with
      | none => exact ih fsys f hmem' png hT
      | some pg =>
        simp only
        by_cases hfs : fsys pg = true
        · rw [if_pos hfs]; exact ih fsys f hmem' png hT
        · rw [if_neg hfs]
          cases hokg : ok g with
          | true => simp only [if_true]; exact ih _ f hmem' png hT
          | false => simp only [Bool.false_eq_true, if_false]; exact ih fsys f hmem' png hT

theorem runBg_no_work (ok : List Char → Bool) :
    ∀ (entries : List (List Char)) (fsys : List Char → Bool),
      (∀ f ∈ entries, ∀ png, taskTarget f = some png → fsys png = true) →
      (runBg ok entries fsys).1 = [] := by
  intro entries
  induction entries with
  | nil => intro fsys _; rfl
  | cons f rest ih =>
    intro fsys h
    show (runBg ok (f :: rest) fsys).1 = []
    unfold runBg
    cases hT : taskTarget f with
    | none => exact ih fsys (fun g hg => h g (List.mem_cons_of_mem f hg))
    | some png =>
      simp only
      rw [if_pos (h f (List.mem_cons_self f rest) png hT)]
      exact ih fsys (fun g hg => h g (List.mem_cons_of_mem f hg))

theorem streamLoop_attempts (outcome : List Char → Option (List Char)) (total : Nat) :
    ∀ (files : List (List Char)) (i : Nat) (fsys : List Char → Bool),
      (streamLoop outcome total files i fsys).attempts =
        files.filter (fun f => pageInRange (jsParseInt (removeFirst htmlSuffix f))) := by
  intro files
  induction files with
  | nil => intro i fsys; rfl
  | cons f rest ih =>
    intro i fsys
    cases hJ : jsParseInt (removeFirst htmlSuffix f) with
    | none =>
      simp only [streamLoop, hJ, List.filter_cons]
      rw [ih, if_neg (show ¬pageInRange none = true by decide)]
    | some n =>
      by_cases hR : (decide (100 ≤ n) && decide (n ≤ 999)) = true
      · simp only [streamLoop, hJ, if_pos hR, List.filter_cons]
        cases hO : outcome f with
        | none =>
          simp only [hO]
          rw [ih, if_pos (show pageInRange (some n) = true from hR)]
        | some msg =>
          simp only [hO]
          rw [ih, if_pos (show pageInRange (some n) = true from hR)]
      · simp only [streamLoop, hJ, if_neg hR, List.filter_cons]
        rw [ih, if_neg (show ¬pageInRange (some n) = true from hR)]

/-- C4: in background mode only pages whose png is absent are rendered, and a
second background run immediately after a fully successful one performs zero
render operations; the foreground regeneration run renders every retained
page regardless of the filesystem. -/
theorem background_idempotent_foreground_rerenders :
    (∀ (ok : List Char → Bool) (entries : List (List Char))
        (fsys : List Char → Bool) (p : List Char),
        p ∈ (runBg ok entries fsys).1 → fsys p = false) ∧
    (∀ (ok : List Char → Bool) (entries : List (List Char))
        (fsys : List Char → Bool), (∀ f, ok f = true) →
        (runBg ok entries ((runBg ok entries fsys).2)).1 = []) ∧
    (∀ (outcome : List Char → Option (List Char)) (entries : List (List Char))
        (fsys : List Char → Bool),
        (runStream outcome entries fsys).1.attempts = validFiles entries) := by
  refine ⟨?_, ?_, ?_⟩
  · intro ok entries fsys p h
    exact runBg_renders_only_missing ok entries fsys p h
  · intro ok entries fsys hok
    exact runBg_no_work ok entries _
      (fun f hf png hT => runBg_completes ok hok entries fsys f hf png hT)
  · intro outcome entries fsys
    unfold runStream validFiles
    exact streamLoop_attempts outcome _ _ 0 fsys

/-- C4 witness: the idempotence component applied at a concrete folder with
one page file and an always-succeeding renderer. -/
theorem background_idempotent_foreground_rerenders_witness :
    (runBg (fun _ => true) ["100.html".toList]
      ((runBg (fun _ => true) ["100.html".toList] (fun _ => false)).2)).1 = [] :=
  background_idempotent_foreground_rerenders.2.1 (fun _ => true)
    ["100.html".toList] (fun _ => false) (fun _ => rfl)


theorem streamLoop_errors (outcome : List Char → Option (List Char)) (total : Nat) :
    ∀ (files : List (List Char)) (i : Nat) (fsys : List Char → Bool),
      (streamLoop outcome total files i fsys).errors =
        files.filterMap (streamErrorOf outcome) := by
  intro files
  induction files with
  | nil => intro i fsys; rfl
  | cons f rest ih =>
    intro i fsys
    cases hJ : jsParseInt (removeFirst htmlSuffix f) with
    | none =>
      simp only [streamLoop, hJ, List.filterMap_cons]
      rw [show streamErrorOf outcome f = none from by
        unfold streamErrorOf; rw [hJ]; rfl]
      exact ih (i + 1) fsys
    | some n =>
      by_cases hR : (decide (100 ≤ n) && decide (n ≤ 999)) = true
      · cases hO : outcome f with
        | none =>
          simp only [streamLoop, hJ, if_pos hR, hO, List.filterMap_cons]
          rw [show streamErrorOf outcome f = none from by
            unfold streamErrorOf; rw [hJ, hO]; simp [pageInRange]]
          exact ih (i + 1) _
        | some msg =>
          simp only [streamLoop, hJ, if_pos hR, hO, List.filterMap_cons]
          rw [show streamErrorOf outcome f = some (f ++ (": ".toList) ++ msg) from by
            unfold streamErrorOf
            rw [hJ, hO, if_pos (show pageInRange (some n) = true from hR)]
            rfl]
          rw [ih (i + 1) fsys]
      · simp only [streamLoop, hJ, if_neg hR, List.filterMap_cons]
        rw [show streamErrorOf outcome f = none from by
          unfold streamErrorOf
          rw [hJ, if_neg (show ¬pageInRange (some n) = true from hR)]]
        exact ih (i + 1) fsys

theorem streamLoop_generated (outcome : List Char → Option (List Char)) (total : Nat) :
    ∀ (files : List (List Char)) (i : Nat) (fsys : List Char → Bool),
      (streamLoop outcome total files i fsys).generated =
        files.filterMap (streamGenOf outcome) := by
  intro files
  induction files with
  | nil => intro i fsys; rfl
  | cons f rest ih =>
    intro i fsys
    cases hJ : jsParseInt (removeFirst htmlSuffix f) with
    | none =>
      simp only [streamLoop, hJ, List.filterMap_cons]
      rw [show streamGenOf outcome f = none from by
        unfold streamGenOf; rw [hJ]]
      exact ih (i + 1) fsys
    | some n =>
      by_cases hR : (decide (100 ≤ n) && decide (n ≤ 999)) = true
      · cases hO : outcome f with
        | none =>
          simp only [streamLoop, hJ, if_pos hR, hO, List.filterMap_cons]
          rw [show streamGenOf outcome f = some (natToDec n.toNat ++ pngSuffix) from by
            unfold streamGenOf; rw [hJ, hO]; simp only [if_pos hR]]
          rw [ih (i + 1) _]
        | some msg =>
          simp only [streamLoop, hJ, if_pos hR, hO, List.filterMap_cons]
          rw [show streamGenOf outcome f = none from by
            unfold streamGenOf; rw [hJ, hO]]
          exact ih (i + 1) fsys
      · simp only [streamLoop, hJ, if_neg hR, List.filterMap_cons]
        rw [show streamGenOf outcome f = none from by
          unfold streamGenOf
          rw [hJ]
          cases hO : outcome f with
          | none => simp only [if_neg hR]
          | some m => rfl]
        exact ih (i + 1) fsys

theorem streamLoop_outcome_count (outcome : List Char → Option (List Char)) (total : Nat) :
    ∀ (files : List (List Char)) (i : Nat) (fsys : List Char → Bool),
      (streamLoop outcome total files i fsys).generated.length +
        (streamLoop outcome total files i fsys).errors.length =
        (files.filter
          (fun f => pageInRange (jsParseInt (removeFirst htmlSuffix f)))).length := by
  intro files
  induction files with
  | nil => intro i fsys; rfl
  | cons f rest ih =>
    intro i fsys
    cases hJ : jsParseInt (removeFirst htmlSuffix f) with
    | none =>
      simp only [streamLoop, hJ, List.filter_cons]
      rw [if_neg (show ¬pageInRange none = true by decide)]
      exact ih (i + 1) fsys
    | some n =>
      by_cases hR : (decide (100 ≤ n) && decide (n ≤ 999)) = true
      · cases hO : outcome f with
        | none =>
          simp only [streamLoop, hJ, if_pos hR, hO, List.filter_cons]
          rw [if_pos (show pageInRange (some n) = true from hR)]
          simp only [List.length_cons]
          rw [show ∀ a b : Nat, a + 1 + b = (a + b) + 1 from fun a b => by omega]
          rw [ih (i + 1) _]
        | some msg =>
          simp only [streamLoop, hJ, if_pos hR, hO, List.filter_cons]
          rw [if_pos (show pageInRange (some n) = true from hR)]
          simp only [List.length_cons]
          rw [show ∀ a b : Nat, a + (b + 1) = (a + b) + 1 from fun a b => by omega]
          rw [ih (i + 1) fsys]
      · simp only [streamLoop, hJ, if_neg hR, List.filter_cons]
        rw [if_neg (show ¬pageInRange (some n) = true from hR)]
        exact ih (i + 1) fsys

theorem streamLoop_events_bounds (outcome : List Char → Option (List Char)) (total : Nat) :
    ∀ (files : List (List Char)) (i : Nat) (fsys : List Char → Bool)
      (e : ProgressEvent), e ∈ (streamLoop outcome total files i fsys).events →
      i + 1 ≤ e.current ∧ e.current ≤ i + files.length ∧ e.total = total := by
  intro files
  induction files with
  | nil => intro i fsys e he; exact absurd he (by simp [streamLoop])
  | cons f rest ih =>
    intro i fsys e he
    cases hJ : jsParseInt (removeFirst htmlSuffix f) with
    | none =>
      simp only [streamLoop, hJ] at he
      have hb := ih (i + 1) fsys e he
      simp only [List.length_cons]
      omega
    | some n =>
      by_cases hR : (decide (100 ≤ n) && decide (n ≤ 999)) = true
      · cases hO : outcome f with
        | none =>
          simp only [streamLoop, hJ, if_pos hR, hO, List.mem_cons] at he
          rcases he with he | he
          · subst he
            refine ⟨le_refl _, ?_, rfl⟩
            show i + 1 ≤ i + (rest.length + 1)
            omega
          · have hb := ih (i + 1) _ e he
            simp only [List.length_cons]
            omega
        | some msg =>
          simp only [streamLoop, hJ, if_pos hR, hO] at he
          have hb := ih (i + 1) fsys e he
          simp only [List.length_cons]
          omega
      · simp only [streamLoop, hJ, if_neg hR] at he
        have hb := ih (i + 1) fsys e he
        simp only [List.length_cons]
        omega

theorem streamLoop_events_increasing (outcome : List Char → Option (List Char))
    (total : Nat) :
    ∀ (files : List (List Char)) (i : Nat) (fsys : List Char → Bool),
      List.Pairwise (fun a b : ProgressEvent => a.current < b.current)
        (streamLoop outcome total files i fsys).events := by
  intro files
  induction files with
  | nil => intro i fsys; exact List.Pairwise.nil
  | cons f rest ih =>
    intro i fsys
    cases hJ : jsParseInt (removeFirst htmlSuffix f) with
    | none =>
      simp only [streamLoop, hJ]
      exact ih (i + 1) fsys
    | some n =>
      by_cases hR : (decide (100 ≤ n) && decide (n ≤ 999)) = true
      · cases hO : outcome f with
        | none =>
          simp only [streamLoop, hJ, if_pos hR, hO]
          refine List.Pairwise.cons ?_ (ih (i + 1) _)
          intro e he
          have hb := streamLoop_events_bounds outcome total rest (i + 1) _ e he
          show i + 1 < e.current
          omega
        | some msg =>
          simp only [streamLoop, hJ, if_pos hR, hO]
          exact ih (i + 1) fsys
      · simp only [streamLoop, hJ, if_neg hR]
        exact ih (i + 1) fsys

theorem streamLoop_events_length (outcome : List Char → Option (List Char))
    (total : Nat) :
    ∀ (files : List (List Char)) (i : Nat) (fsys : List Char → Bool),
      (streamLoop outcome total files i fsys).events.length =
        (files.filter (fun f =>
          pageInRange (jsParseInt (removeFirst htmlSuffix f)) &&
            (outcome f).isNone)).length := by
  intro files
  induction files with
  | nil => intro i fsys; rfl
  | cons f rest ih =>
    intro i fsys
    cases hJ : jsParseInt (removeFirst htmlSuffix f) with
    | none =>
      simp only [streamLoop, hJ, List.filter_cons]
      rw [if_neg (show ¬(pageInRange none && (outcome f).isNone) = true by simp [pageInRange])]
      exact ih (i + 1) fsys
    | some n =>
      by_cases hR : (decide (100 ≤ n) && decide (n ≤ 999)) = true
      · cases hO : outcome f with
        | none =>
          simp only [streamLoop, hJ, if_pos hR, hO, List.filter_cons]
          rw [if_pos (show (pageInRange (some n) &&
              (none : Option (List Char)).isNone) = true from by
            rw [show pageInRange (some n) = true from hR]; rfl)]
          simp only [List.length_cons]
          rw [ih (i + 1) _]
        | some msg =>
          simp only [streamLoop, hJ, if_pos hR, hO, List.filter_cons]
          rw [if_neg (show ¬(pageInRange (some n) &&
              (some msg : Option (List Char)).isNone) = true from by simp)]
          exact ih (i + 1) fsys
      · simp only [streamLoop, hJ, if_neg hR, List.filter_cons]
        rw [if_neg (show ¬(pageInRange (some n) && (outcome f).isNone) = true from by
          intro hcon
          exact hR ((Bool.and_eq_true _ _).mp hcon).1)]
        exact ih (i + 1) fsys

/-- C6: every per-item error of a foreground run is caught at the task
boundary and becomes an entry of the error list (`'file: message'`), sibling
tasks all still run (the attempted set is the full retained set and the
outcome count matches it, whatever the failures), and the final message
always reports `success = true` carrying the error and generated lists,
never a thrown error. -/
theorem per_item_errors_listed_batch_always_succeeds :
    ∀ (outcome : List Char → Option (List Char)) (entries : List (List Char))
      (fsys : List Char → Bool),
      (runStream outcome entries fsys).2.success = true ∧
      (runStream outcome entries fsys).2.errors =
        (runStream outcome entries fsys).1.errors ∧
      (runStream outcome entries fsys).2.generated =
        (runStream outcome entries fsys).1.generated ∧
      (runStream outcome entries fsys).1.errors =
        (entries.filter (fun f => endsWith htmlSuffix f)).filterMap
          (streamErrorOf outcome) ∧
      (runStream outcome entries fsys).1.attempts = validFiles entries ∧
      (runStream outcome entries fsys).1.generated.length +
        (runStream outcome entries fsys).1.errors.length =
        (validFiles entries).length := by
  intro outcome entries fsys
  refine ⟨rfl, rfl, rfl, ?_, ?_, ?_⟩
  · exact streamLoop_errors outcome _ _ 0 fsys
  · exact streamLoop_attempts outcome _ _ 0 fsys
  · exact streamLoop_outcome_count outcome _ _ 0 fsys

theorem chunksOfAux_length_le {k : Nat} (hk : 1 ≤ k) :
    ∀ (fuel : Nat) (l : List (List Char)) (c : List (List Char)),
      c ∈ chunksOfAux k fuel l → c.length ≤ k := by
  intro fuel
  induction fuel with
  | zero => intro l c hc; exact absurd hc (by simp [chunksOfAux])
  | succ f ih =>
    intro l c hc
    match l with
    | [] => exact absurd hc (by simp [chunksOfAux])
    | x :: xs =>
      simp only [chunksOfAux, List.mem_cons] at hc
      rcases hc with hc | hc
      · subst hc
        simp only [List.length_cons, List.length_take]
        omega
      · exact ih _ c hc

theorem chunksOf_length_le {k : Nat} (hk : 1 ≤ k) (l : List (List Char))
    (c : List (List Char)) (hc : c ∈ chunksOf k l) : c.length ≤ k :=
  chunksOfAux_length_le hk l.length l c hc


theorem schedStep_preserves (s t : List Inv) (hst : SchedStep s t)
    (hs : ∀ inv ∈ s, InvOK inv) : ∀ inv ∈ t, InvOK inv := by
  cases hst with
  | spawn s tasks =>
    intro inv hinv
    rcases List.mem_append.mp hinv with h | h
    · exact hs inv h
    · have heq : inv = ⟨0, (chunksOf MAX_CONCURRENT tasks).map List.length⟩ := by
        simpa using h
      subst heq
      refine ⟨by simp [MAX_CONCURRENT], ?_⟩
      intro c hc
      rcases List.mem_map.mp hc with ⟨ch, hch, hlen⟩
      rw [← hlen]
      exact chunksOf_length_le (by simp [MAX_CONCURRENT]) tasks ch hch
  | start s₁ s₂ c rest =>
    intro inv hinv
    have hmid := hs ⟨0, c :: rest⟩ (by simp)
    rcases List.mem_append.mp hinv with h | h
    · exact hs inv (List.mem_append.mpr (Or.inl h))
    · rcases List.mem_cons.mp h with h | h
      · subst h
        refine ⟨hmid.2 c (by simp), ?_⟩
        intro d hd
        exact hmid.2 d (List.mem_cons_of_mem c hd)
      · exact hs inv (List.mem_append.mpr (Or.inr (List.mem_cons_of_mem _ h)))
  | finish s₁ s₂ n rest =>
    intro inv hinv
    have hmid := hs ⟨n + 1, rest⟩ (by simp)
    rcases List.mem_append.mp hinv with h | h
    · exact hs inv (List.mem_append.mpr (Or.inl h))
    · rcases List.mem_cons.mp h with h | h
      · subst h
        refine ⟨?_, hmid.2⟩
        have h1 : n + 1 ≤ MAX_CONCURRENT := hmid.1
        show n ≤ MAX_CONCURRENT
        omega
      · exact hs inv (List.mem_append.mpr (Or.inr (List.mem_cons_of_mem _ h)))

/-- C5 amended: inside every single `generateThumbnailsForFolder` invocation
the number of simultaneously active render operations never exceeds
`MAX_CONCURRENT = 3`, in every reachable process state and for every batch
size; the ceiling is per-invocation, not global. -/
theorem per_invocation_ceiling_holds :
    ∀ s : List Inv, SchedReachable s → ∀ inv ∈ s, inv.active ≤ MAX_CONCURRENT := by
  have hOK : ∀ s : List Inv, SchedReachable s → ∀ inv ∈ s, InvOK inv := by
    intro s hr
    induction hr with
    | init => intro inv hinv; exact absurd hinv (List.not_mem_nil inv)
    | step _ hstep ih => exact schedStep_preserves _ _ hstep ih
  intro s hr inv hinv
  exact (hOK s hr inv hinv).1

/-- C5 counterexample: two overlapping invocations (two folders viewed
simultaneously, three pages each) reach a process state with six active
render operations, exceeding the configured ceiling of three — the ceiling
is not global to the process. -/
theorem global_ceiling_violated_counterexample :
    SchedReachable [⟨3, []⟩, ⟨3, []⟩] ∧
    totalActive [⟨3, []⟩, ⟨3, []⟩] = 6 ∧
    ¬(totalActive [⟨3, []⟩, ⟨3, []⟩] ≤ MAX_CONCURRENT) := by
  refine ⟨?_, by decide, by decide⟩
  have h0 : SchedReachable [] := SchedReachable.init
  have h1 : SchedReachable [(⟨0, [3]⟩ : Inv)] :=
    SchedReachable.step h0
      (show SchedStep [] ([] ++ [⟨0, (chunksOf MAX_CONCURRENT
          ["100.html".toList, "101.html".toList, "102.html".toList]).map List.length⟩])
        from SchedStep.spawn [] _)
  have h2 : SchedReachable [(⟨0, [3]⟩ : Inv), ⟨0, [3]⟩] :=
    SchedReachable.step h1
      (show SchedStep [(⟨0, [3]⟩ : Inv)] ([(⟨0, [3]⟩ : Inv)] ++
          [⟨0, (chunksOf MAX_CONCURRENT
            ["100.html".toList, "101.html".toList, "102.html".toList]).map List.length⟩])
        from SchedStep.spawn _ _)
  have h3 : SchedReachable [(⟨3, []⟩ : Inv), ⟨0, [3]⟩] :=
    SchedReachable.step h2
      (show SchedStep ([] ++ (⟨0, 3 :: []⟩ : Inv) :: [⟨0, [3]⟩])
          ([] ++ (⟨3, []⟩ : Inv) :: [⟨0, [3]⟩])
        from SchedStep.start [] [⟨0, [3]⟩] 3 [])
  exact SchedReachable.step h3
    (show SchedStep ([⟨3, []⟩] ++ (⟨0, 3 :: []⟩ : Inv) :: [])
        ([⟨3, []⟩] ++ (⟨3, []⟩ : Inv) :: [])
      from SchedStep.start [⟨3, []⟩] [] 3 [])

/-- C5 witness: the per-invocation bound applied to a concrete reachable
state holding one invocation with a full chunk active. -/
theorem per_invocation_ceiling_holds_witness :
    (⟨3, []⟩ : Inv).active ≤ MAX_CONCURRENT := by
  have h0 : SchedReachable [] := SchedReachable.init
  have h1 : SchedReachable [(⟨0, [3]⟩ : Inv)] :=
    SchedReachable.step h0
      (show SchedStep [] ([] ++ [⟨0, (chunksOf MAX_CONCURRENT
          ["100.html".toList, "101.html".toList, "102.html".toList]).map List.length⟩])
        from SchedStep.spawn [] _)
  have h2 : SchedReachable [(⟨3, []⟩ : Inv)] :=
    SchedReachable.step h1
      (show SchedStep ([] ++ (⟨0, 3 :: []⟩ : Inv) :: [])
          ([] ++ (⟨3, []⟩ : Inv) :: [])
        from SchedStep.start [] [] 3 [])
  exact per_invocation_ceiling_holds [⟨3, []⟩] h2 ⟨3, []⟩ (by simp)

/-- C7 counterexample: a two-page foreground run whose second render fails
emits a single progress event (the failed task emits none), and no event —
final or otherwise — carries `current = total`, although the batch completed
without a pool-level abort; the final message carries no `current` field at
all. -/
theorem progress_event_per_task_counterexample :
    ((runStream
        (fun f => if f = "101.html".toList then some ("boom".toList) else none)
        ["100.html".toList, "101.html".toList] (fun _ => false)).1.events.length = 1) ∧
    (validFiles ["100.html".toList, "101.html".toList]).length = 2 ∧
    (∀ e ∈ (runStream
        (fun f => if f = "101.html".toList then some ("boom".toList) else none)
        ["100.html".toList, "101.html".toList] (fun _ => false)).1.events,
      e.current ≠ e.total) := by
  decide

/-- C7 amended: progress events are emitted exactly after each successful
task (failed and skipped tasks emit no event), their `current` values are
monotonically non-decreasing with `current ≤ total` and `total` the html
file count, and the final summary message is always produced with
`success = true` but carries no `current` field — so no terminal
`current = total` event is guaranteed when trailing tasks fail. -/
theorem progress_events_monotone_success_only :
    ∀ (outcome : List Char → Option (List Char)) (entries : List (List Char))
      (fsys : List Char → Bool),
      List.Pairwise (fun a b : Nat => a ≤ b)
        (((runStream outcome entries fsys).1.events).map ProgressEvent.current) ∧
      (∀ e ∈ (runStream outcome entries fsys).1.events,
        e.total = (entries.filter (fun f => endsWith htmlSuffix f)).length ∧
        e.current ≤ e.total) ∧
      (runStream outcome entries fsys).1.events.length =
        ((entries.filter (fun f => endsWith htmlSuffix f)).filter
          (fun f => pageInRange (jsParseInt (removeFirst htmlSuffix f)) &&
            (outcome f).isNone)).length ∧
      (runStream outcome entries fsys).2.success = true := by
  intro outcome entries fsys
  refine ⟨?_, ?_, ?_, rfl⟩
  · rw [List.pairwise_map]
    exact (streamLoop_events_increasing outcome _ _ 0 fsys).imp
      (fun hab => Nat.le_of_lt hab)
  · intro e he
    have hb := streamLoop_events_bounds outcome _ _ 0 fsys e he
    exact ⟨hb.2.2, by omega⟩
  · exact streamLoop_events_length outcome _ _ 0 fsys

/-- C7 witness: the amended theorem's per-event component applied to the one
event of a concrete all-successful single-page run. -/
theorem progress_events_monotone_success_only_witness :
    (⟨100, 1, 1, ["100.png".toList]⟩ : ProgressEvent).total =
      ((["100.html".toList].filter (fun f => endsWith htmlSuffix f)).length) ∧
    (⟨100, 1, 1, ["100.png".toList]⟩ : ProgressEvent).current ≤
      (⟨100, 1, 1, ["100.png".toList]⟩ : ProgressEvent).total :=
  (progress_events_monotone_success_only (fun _ => none) ["100.html".toList]
    (fun _ => false)).2.1 ⟨100, 1, 1, ["100.png".toList]⟩ (by decide)

/-- C8 counterexample: the server.js `generateThumbnail` writes the raw
full-page screenshot to the target path before overwriting it with the
normalized buffer, so starting from an absent target the path observably
holds non-normalized content at an intermediate moment. -/
theorem persist_not_atomic_counterexample :
    some ThumbContent.raw ∈ observedStates none serverWriteSeq ∧
    some ThumbContent.raw ≠ (none : Option ThumbContent) ∧
    ThumbContent.raw ≠ ThumbContent.normalized := by
  decide

/-- C8 amended: the part_002 `generateThumbnail` persists with a single
buffered write, so every observable state of the target is either the prior
content or the fully normalized artifact; in the server.js variant the
target transiently holds the raw screenshot, but in both variants the final
observable state is the normalized artifact (wholesale overwrite, last
writer wins). -/
theorem persist_single_write_part002_final_normalized :
    (∀ (init : Option ThumbContent) (s : Option ThumbContent),
      s ∈ observedStates init part002WriteSeq →
      s = init ∨ s = some ThumbContent.normalized) ∧
    (∀ init : Option ThumbContent,
      (observedStates init serverWriteSeq).getLast? =
        some (some ThumbContent.normalized)) ∧
    (∀ init : Option ThumbContent,
      (observedStates init part002WriteSeq).getLast? =
        some (some ThumbContent.normalized)) := by
  refine ⟨?_, fun init => rfl, fun init => rfl⟩
  intro init s hs
  simp only [observedStates, part002WriteSeq, List.map_cons, List.map_nil,
    List.mem_cons, List.not_mem_nil, or_false] at hs
  rcases hs with hs | hs
  · exact Or.inl hs
  · exact Or.inr hs

/-- C8 witness: the amended theorem's single-write component applied to the
normalized state reached from an absent target. -/
theorem persist_single_write_part002_final_normalized_witness :
    some ThumbContent.normalized = (none : Option ThumbContent) ∨
    some ThumbContent.normalized = some ThumbContent.normalized :=
  persist_single_write_part002_final_normalized.1 none
    (some ThumbContent.normalized) (by decide)

/-- C9: `generateThumbnail` persists by writing the file only — `imageCache`
is never invalidated or overwritten — so once a png has been served and
cached, a later regeneration leaves the stale bytes in the cache and
`/teletext` keeps serving them: the first serve caches version 1, a persist
of version 2 updates the file but not the cache, and the next serve still
returns version 1. -/
theorem stale_cache_after_regeneration :
    (serveTeletext
      (persistThumb
        (serveTeletext
          ⟨fun q => if q = "A/100.png".toList then some 1 else none,
            fun _ => none⟩
          ("A/100.png".toList)).2
        ("A/100.png".toList) 2)
      ("A/100.png".toList)).1 = some 1 ∧
    (persistThumb
        (serveTeletext
          ⟨fun q => if q = "A/100.png".toList then some 1 else none,
            fun _ => none⟩
          ("A/100.png".toList)).2
        ("A/100.png".toList) 2).fsys ("A/100.png".toList) = some 2 ∧
    (∀ (st : ServeState) (k : List Char) (buf : Nat),
      (persistThumb st k buf).cache = st.cache) := by
  refine ⟨?_, ?_, fun st k buf => rfl⟩
  · rfl
  · rfl

theorem lastN_of_length_le {n : Nat} {l : List Char} (h : l.length ≤ n) :
    lastN n l = l := by
  unfold lastN
  rw [show l.length - n = 0 from by omega, List.drop_zero]

theorem lastN_cons_of_le {k : Nat} {x : Char} {xs : List Char} (h : k ≤ xs.length) :
    lastN k (x :: xs) = lastN k xs := by
  unfold lastN
  rw [show (x :: xs).length - k = (xs.length - k) + 1 from by
    rw [List.length_cons]; omega]
  rfl

theorem lastN_length {n : Nat} {l : List Char} (h : n ≤ l.length) :
    (lastN n l).length = n := by
  unfold lastN
  rw [List.length_drop]
  omega

theorem matchYearEnd_eq (l : List Char) :
    matchYearEnd l =
      if 4 ≤ l.length ∧ (lastN 4 l).all isDigitB = true then some (lastN 4 l)
      else if 2 ≤ l.length ∧ (lastN 2 l).all isDigitB = true then some (lastN 2 l)
      else none := by
  induction l with
  | nil => simp [matchYearEnd, lastN]
  | cons x xs ih =>
    have hL : (x :: xs).length = xs.length + 1 := List.length_cons x xs
    by_cases h0 : xs.length = 0
    · -- length 1: no match
      have hx : xs = [] := List.length_eq_zero.mp h0
      subst hx
      simp [matchYearEnd, lastN]
    · by_cases h1 : xs.length = 1
      · -- length 2: possible 2-digit match of the whole string
        have hc2 : ((x :: xs).length == 2) = true := by
          rw [hL, h1]; rfl
        have hc4 : ((x :: xs).length == 4) = false := by
          rw [hL, h1]; rfl
        have hLN2 : lastN 2 (x :: xs) = x :: xs := lastN_of_length_le (by omega)
        by_cases hall : (x :: xs).all isDigitB = true
        · simp only [matchYearEnd, hc2, hall, Bool.and_self, if_true]
          rw [if_neg (by omega : ¬(4 ≤ (x :: xs).length ∧ _)), if_pos ⟨by omega, by rw [hLN2]; exact hall⟩, hLN2]
        · have hallf : (x :: xs).all isDigitB = false := Bool.eq_false_iff.mpr hall
          simp only [matchYearEnd, hc2, hallf, Bool.true_and, Bool.false_eq_true, if_false,
            hc4, Bool.false_and]
          rw [ih]
          rw [if_neg (by omega : ¬(4 ≤ xs.length ∧ _)), if_neg (by omega : ¬(2 ≤ xs.length ∧ _)),
            if_neg (by omega : ¬(4 ≤ (x :: xs).length ∧ _)),
            if_neg (fun hcon => by rw [hLN2] at hcon; exact hall hcon.2)]
      · by_cases h2 : xs.length = 2
        · -- length 3: the last two characters may match
          have hc2 : ((x :: xs).length == 2) = false := by rw [hL, h2]; rfl
          have hc4 : ((x :: xs).length == 4) = false := by rw [hL, h2]; rfl
          have hLN2 : lastN 2 (x :: xs) = lastN 2 xs := lastN_cons_of_le (by omega)
          have hLN2x : lastN 2 xs = xs := lastN_of_length_le (by omega)
          simp only [matchYearEnd, hc2, hc4, Bool.false_and, Bool.false_eq_true, if_false]
          rw [ih]
          rw [if_neg (by omega : ¬(4 ≤ xs.length ∧ _)),
            if_neg (by omega : ¬(4 ≤ (x :: xs).length ∧ _)), hLN2, hLN2x]
          by_cases hall : xs.all isDigitB = true
          · rw [if_pos ⟨by omega, hall⟩, if_pos ⟨by omega, hall⟩]
          · rw [if_neg (fun hcon => hall hcon.2), if_neg (fun hcon => hall hcon.2)]
        · by_cases h3 : xs.length = 3
          · -- length 4: the whole string may match, else fall back to last two
            have hc2 : ((x :: xs).length == 2) = false := by rw [hL, h3]; rfl
            have hc4 : ((x :: xs).length == 4) = true := by rw [hL, h3]; rfl
            have hLN4 : lastN 4 (x :: xs) = x :: xs := lastN_of_length_le (by omega)
            have hLN2 : lastN 2 (x :: xs) = lastN 2 xs := lastN_cons_of_le (by omega)
            by_cases hall : (x :: xs).all isDigitB = true
            · simp only [matchYearEnd, hc2, hc4, Bool.false_and, Bool.false_eq_true, if_false,
                hall, Bool.true_and, if_true]
              rw [if_pos ⟨by omega, by rw [hLN4]; exact hall⟩, hLN4]
            · have hallf : (x :: xs).all isDigitB = false := Bool.eq_false_iff.mpr hall
              simp only [matchYearEnd, hc2, hc4, Bool.false_and, Bool.false_eq_true, if_false,
                hallf, Bool.true_and]
              rw [if_neg (show ¬(4 ≤ (x :: xs).length ∧
                  (lastN 4 (x :: xs)).all isDigitB = true) from
                fun hcon => hall (hLN4 ▸ hcon.2))]
              rw [hLN2, ih]
              rw [if_neg (show ¬(4 ≤ xs.length ∧ (lastN 4 xs).all isDigitB = true) from
                fun hcon => absurd hcon.1 (by omega))]
              exact if_congr (Iff.intro (fun h => ⟨by omega, h.2⟩)
                (fun h => ⟨by omega, h.2⟩)) rfl rfl
          · -- length at least 5: the head can never start a match
            have h5 : 4 ≤ xs.length := by omega
            have hc2 : ((x :: xs).length == 2) = false := by
              rw [hL]
              exact beq_eq_false_iff_ne.mpr (by omega)
            have hc4 : ((x :: xs).length == 4) = false := by
              rw [hL]
              exact beq_eq_false_iff_ne.mpr (by omega)
            have hLN4 : lastN 4 (x :: xs) = lastN 4 xs := lastN_cons_of_le (by omega)
            have hLN2 : lastN 2 (x :: xs) = lastN 2 xs := lastN_cons_of_le (by omega)
            simp only [matchYearEnd, hc2, hc4, Bool.false_and, Bool.false_eq_true, if_false]
            rw [ih, hLN4, hLN2]
            exact if_congr (Iff.intro (fun h => ⟨by omega, h.2⟩)
                (fun h => ⟨by omega, h.2⟩)) rfl
              (if_congr (Iff.intro (fun h => ⟨by omega, h.2⟩)
                (fun h => ⟨by omega, h.2⟩)) rfl rfl)

/-- C10: the year bucket of a subfolder name is derived from its trailing
digits — four trailing digits are the year itself, two (but not four)
trailing digits `n` give `1900 + n` when `n > 25` and `2000 + n` otherwise,
anything else gives bucket 0 — and the grouped view presents the distinct
year buckets in strictly descending order, each bucket holding exactly its
folders sorted in ascending lexicographic (code point) order. -/
theorem year_grouping_rule_and_order :
    (∀ l : List Char, 4 ≤ l.length → (lastN 4 l).all isDigitB = true →
      yearBucket l = digitsVal (lastN 4 l)) ∧
    (∀ l : List Char, 2 ≤ l.length → (lastN 2 l).all isDigitB = true →
      ¬(4 ≤ l.length ∧ (lastN 4 l).all isDigitB = true) →
      yearBucket l = (if 25 < digitsVal (lastN 2 l)
        then 1900 + digitsVal (lastN 2 l) else 2000 + digitsVal (lastN 2 l))) ∧
    (∀ l : List Char, ¬(2 ≤ l.length ∧ (lastN 2 l).all isDigitB = true) →
      ¬(4 ≤ l.length ∧ (lastN 4 l).all isDigitB = true) →
      yearBucket l = 0) ∧
    (∀ folders : List (List Char),
      List.Pairwise (fun a b : Nat => a > b)
        ((groupedFolders folders).map Prod.fst) ∧
      (∀ p ∈ groupedFolders folders,
        List.Pairwise (fun a b : List Char => a ≤ b) p.2 ∧
        (∀ f, f ∈ p.2 ↔ f ∈ folders ∧ yearBucket f = p.1)) ∧
      (∀ f ∈ folders, yearBucket f ∈ (groupedFolders folders).map Prod.fst)) := by
  refine ⟨?_, ?_, ?_, ?_⟩
  · intro l h4 hd4
    unfold yearBucket
    rw [matchYearEnd_eq l, if_pos ⟨h4, hd4⟩]
    simp only
    rw [show ((lastN 4 l).length == 4) = true from by rw [lastN_length h4]; rfl,
      if_pos rfl]
  · intro l h2 hd2 hn4
    unfold yearBucket
    rw [matchYearEnd_eq l, if_neg hn4, if_pos ⟨h2, hd2⟩]
    simp only
    rw [show ((lastN 2 l).length == 4) = false from by
      rw [lastN_length h2]
      rfl]
    simp only [Bool.false_eq_true, if_false]
  · intro l hn2 hn4
    unfold yearBucket
    rw [matchYearEnd_eq l, if_neg hn4, if_neg hn2]
  · intro folders
    have hyears :
        (groupedFolders folders).map Prod.fst =
          List.insertionSort (fun a b : Nat => a ≥ b)
            ((folders.map yearBucket).dedup) := by
      unfold groupedFolders
      rw [List.map_map]
      exact List.map_id _
    refine ⟨?_, ?_, ?_⟩
    · rw [hyears]
      have hs := List.sorted_insertionSort (fun a b : Nat => a ≥ b)
        ((folders.map yearBucket).dedup)
      have hnd : (List.insertionSort (fun a b : Nat => a ≥ b)
          ((folders.map yearBucket).dedup)).Nodup :=
        (List.perm_insertionSort _ _).nodup_iff.mpr (List.nodup_dedup _)
      exact (hs.and hnd).imp (fun hab => by omega)
    · intro p hp
      rcases List.mem_map.mp hp with ⟨y, hy, hpy⟩
      subst hpy
      refine ⟨List.sorted_insertionSort _ _, ?_⟩
      intro f
      constructor
      · intro hf
        have hf' := (List.perm_insertionSort _ _).mem_iff.mp hf
        have hf'' := List.mem_filter.mp hf'
        exact ⟨hf''.1, by simpa using hf''.2⟩
      · intro hf
        apply (List.perm_insertionSort _ _).mem_iff.mpr
        exact List.mem_filter.mpr ⟨hf.1, by simpa using hf.2⟩
    · intro f hf
      rw [hyears]
      apply (List.perm_insertionSort _ _).mem_iff.mpr
      rw [List.mem_dedup]
      exact List.mem_map_of_mem yearBucket hf

/-- C10 witness: the derivation rule applied at the concrete folder names
`"a2006"` (four trailing digits), `"ORT 95"` (two trailing digits above 25)
and `"abc"` (no trailing digits). -/
theorem year_grouping_rule_and_order_witness :
    yearBucket ("a2006".toList) = digitsVal (lastN 4 ("a2006".toList)) ∧
    yearBucket ("ORT 95".toList) = (if 25 < digitsVal (lastN 2 ("ORT 95".toList))
      then 1900 + digitsVal (lastN 2 ("ORT 95".toList))
      else 2000 + digitsVal (lastN 2 ("ORT 95".toList))) ∧
    yearBucket ("abc".toList) = 0 :=
  ⟨year_grouping_rule_and_order.1 ("a2006".toList) (by decide) (by decide),
   year_grouping_rule_and_order.2.1 ("ORT 95".toList) (by decide) (by decide)
     (by decide),
   year_grouping_rule_and_order.2.2.1 ("abc".toList) (by decide) (by decide)⟩

end Teletext
